import Mathlib

/-!
Verification of the `remits` log-database core.

The development shallowly embeds the two source files of the repository:

* `src/db/manifest.rs` — the `Manifest` registry (`add_log`, `del_log`,
  `add_itr`, `del_itr`) over two string-keyed hash maps; and
* `src/main.rs` — the per-connection pipeline: response formatting
  (`format_response!` / `format_error_response!`), the read/parse/execute/write
  loop of `handle_socket`, and the single `Mutex` guarding the database.

Rust `HashMap<String, V>` is embedded as an association list
`List (String × V)`; a real hash map never stores two entries under the same
key, which is captured by the predicate `keysNodup` where it matters.
Lookup, vacant-insert and removal mirror the `Entry` API used by the source.
`SystemTime::now()` is passed in as an explicit `Nat` argument.
A Rust panic (the `expect` in `del_log`'s cascade) is embedded as `none`.
-/

namespace Remits

/-- Modelled from the spec: `IteratorKind` lives in `crate::commands`, which is
not among the source files; the spec describes it as an "enumerated
transformation category, e.g. Map". The manifest code only moves values of this
type and compares them for (structural) equality, so it is embedded as an
opaque tag with decidable equality. -/
structure IteratorKind where
  tag : String
deriving DecidableEq, Repr

/-- Modelled from the spec: `crate::errors::Error` is not among the source
files; only the two variants the manifest code constructs are embedded. The
spec calls them the duplicate-name conflict and the not-found error. -/
inductive Error where
  | ItrExistsWithSameName
  | ItrDoesNotExist
deriving DecidableEq, Repr

/-- `super::iters::Itr` is not among the source files, but `manifest.rs`
constructs it literally: fields `log`, `name`, `kind`, `func`, with the derived
structural equality used by `add_itr`'s comparison. -/
structure Itr where
  log : String
  name : String
  kind : IteratorKind
  func : String
deriving DecidableEq, Repr

/-- The `LogRegistrant` struct of `manifest.rs`. -/
structure LogRegistrant where
  name : String
  created_at : Nat
deriving DecidableEq, Repr

/-- `HashMap::get`-style lookup on the association-list embedding: the first
entry whose key matches. -/
def lookupKey (k : String) : List (String × V) → Option V
  | [] => none
  | (k', v) :: rest => if k' = k then some v else lookupKey k rest

/-- `HashMap::remove`-style removal: drop every entry stored under `k` (on a
list without duplicate keys this is exactly the removal of the single entry,
mirroring the hash map). -/
def eraseKey (k : String) : List (String × V) → List (String × V)
  | [] => []
  | p :: rest => if p.1 = k then eraseKey k rest else p :: eraseKey k rest

/-- A real `HashMap` never holds two entries under one key. -/
abbrev keysNodup (l : List (String × V)) : Prop :=
  (l.map Prod.fst).Nodup

/-- The `Manifest` struct of `manifest.rs`: `logs: HashMap<String,
LogRegistrant>` and `itrs: HashMap<String, Itr>`. -/
structure Manifest where
  logs : List (String × LogRegistrant)
  itrs : List (String × Itr)
deriving DecidableEq, Repr

/-- `Manifest::new`. -/
def Manifest.new : Manifest := { logs := [], itrs := [] }

/-- `Manifest::add_log`: `self.logs.entry(name).or_insert_with(|| LogRegistrant
{ name, created_at: now })`. The current time is an explicit argument. -/
def Manifest.add_log (m : Manifest) (name : String) (now : Nat) : Manifest :=
  match lookupKey name m.logs with
  | some _ => m
  | none => { m with logs := (name, { name := name, created_at := now }) :: m.logs }

/-- `Manifest::add_itr`: build the candidate `Itr`; on an occupied entry,
compare against the stored value and fail with `ItrExistsWithSameName` when
they differ; on a vacant entry, insert. Mirrors `&mut self ->
Result<(), Error>` as a pair (state after the call, result). -/
def Manifest.add_itr (m : Manifest) (log : String) (name : String)
    (kind : IteratorKind) (func : String) : Manifest × Except Error Unit :=
  let itr : Itr := { log := log, name := name, kind := kind, func := func }
  match lookupKey name m.itrs with
  | some stored_itr =>
    if stored_itr ≠ itr then (m, .error .ItrExistsWithSameName) else (m, .ok ())
  | none => ({ m with itrs := (name, itr) :: m.itrs }, .ok ())

/-- `Manifest::del_itr`: on an occupied entry whose stored `log` differs from
the supplied one, or on a vacant entry, fail with `ItrDoesNotExist`; otherwise
remove the entry. -/
def Manifest.del_itr (m : Manifest) (log : String) (name : String) :
    Manifest × Except Error Unit :=
  match lookupKey name m.itrs with
  | some itr =>
    if itr.log ≠ log then (m, .error .ItrDoesNotExist)
    else ({ m with itrs := eraseKey name m.itrs }, .ok ())
  | none => (m, .error .ItrDoesNotExist)

/-- The cascade loop of `Manifest::del_log`: `for itr in to_be_deleted { self.
del_itr(name, itr).expect(..) }`. The `expect` aborts the thread on an `Err`;
that panic is embedded as `none`. -/
def delItrCascade (log : String) : Manifest → List String → Option Manifest
  | m, [] => some m
  | m, n :: rest =>
    let r := m.del_itr log n
    match r.2 with
    | .ok _ => delItrCascade log r.1 rest
    | .error _ => none

/-- `Manifest::del_log`: remove the log entry (absence is not an error),
collect the `name` field of every iterator whose `log` field equals the
deleted name, and delete each collected name through `del_itr`. `none` is the
panic of the cascade's `expect`. -/
def Manifest.del_log (m : Manifest) (name : String) : Option Manifest :=
  let m1 : Manifest := { m with logs := eraseKey name m.logs }
  let toBeDeleted := (m1.itrs.filter (fun p => p.2.log = name)).map (fun p => p.2.name)
  delItrCascade name m1 toBeDeleted

/-- The manifest states reachable from `Manifest::new` through the four public
operations (for `del_log`, through the non-panicking executions). -/
inductive Reachable : Manifest → Prop
  | base : Reachable Manifest.new
  | addLog (n : String) (t : Nat) {m : Manifest} :
      Reachable m → Reachable (m.add_log n t)
  | delLog (n : String) {m m' : Manifest} :
      Reachable m → m.del_log n = some m' → Reachable m'
  | addItr (l n : String) (k : IteratorKind) (f : String) {m : Manifest} :
      Reachable m → Reachable (m.add_itr l n k f).1
  | delItr (l n : String) {m : Manifest} :
      Reachable m → Reachable (m.del_itr l n).1

/-- Representation invariant of the two hash maps: no duplicate keys, and the
`name` field of every stored registrant equals its key. -/
def manifestWF (m : Manifest) : Prop :=
  keysNodup m.logs ∧ keysNodup m.itrs ∧
    (∀ p ∈ m.logs, p.2.name = p.1) ∧ (∀ p ∈ m.itrs, p.2.name = p.1)

/-! The connection/command pipeline of `main.rs`. Wire bytes are modelled as
`List Nat` (one `Nat` per byte); an error's UTF-8 text is taken already in
byte form. -/

/-- The `"!"` byte that seeds the `BytesMut` of `format_error_response!`
(ASCII 33). -/
def failureMarker : Nat := 33

/-- The `"+"` byte that seeds the `BytesMut` of `format_response!`
(ASCII 43). -/
def successMarker : Nat := 43

/-- The `format_error_response!` macro of `main.rs`: a buffer seeded with
`"!"`, extended with the error's bytes. -/
def format_error_response (err : List Nat) : List Nat :=
  failureMarker :: err

/-- The `format_response!` macro of `main.rs`: on `Ok(x)` a buffer seeded with
`"+"` extended with the payload bytes verbatim; on `Err(e)` exactly
`format_error_response!(e)`. -/
def format_response (resp : Except (List Nat) (List Nat)) : List Nat :=
  match resp with
  | .ok x => successMarker :: x
  | .error e => format_error_response e

/-- Connection states of the per-connection loop in `handle_socket`: the
`while let` keeps the connection `Open`; leaving the loop is the terminal
`Closed` state. -/
inductive ConnState where
  | Open
  | Closed
deriving DecidableEq, Repr

/-- One observation of `framer.next().await`: `None` (end of stream),
`Some(Err(_))` (transport read error), or `Some(Ok(frame))`. For a received
frame the event records the external parser's verdict on the frame's bytes and
whether the subsequent `framer.send` of the response succeeds. -/
inductive ReadEvent (Cmd : Type) where
  | endOfStream
  | readError
  | received (parseResult : Except (List Nat) Cmd) (writeOk : Bool)

/-- Outcome of one iteration of `handle_socket`'s loop: the connection state
the handler is left in, the database state, and the response frame it
attempted to send (if any). -/
structure IterationResult (Db : Type) where
  conn : ConnState
  db : Db
  sent : Option (List Nat)

/-- One iteration of the `while let Some(result) = framer.next().await` loop
of `handle_socket`. `exec` abstracts `db.lock().unwrap().exec(cmd)` (the `DB`
type lives outside the two source files; only its call shape matters here).
End of stream and `Err` from the read `break` out of the loop; a parse error
sends `format_error_response!(e)`, discards the send result (`let _ = ...`)
and `continue`s; a parsed command is executed and its formatted result sent,
a send failure being only logged (`error!`) before the loop continues — the
`writeOk` flag is received and ignored in both sending paths. -/
def handle_socket_step {Cmd Db : Type}
    (exec : Db → Cmd → Db × Except (List Nat) (List Nat))
    (db : Db) (ev : ReadEvent Cmd) : IterationResult Db :=
  match ev with
  | .endOfStream => { conn := .Closed, db := db, sent := none }
  | .readError => { conn := .Closed, db := db, sent := none }
  | .received (.error e) _ =>
    { conn := .Open, db := db, sent := some (format_error_response e) }
  | .received (.ok cmd) _ =>
    let r := exec db cmd
    { conn := .Open, db := r.1, sent := some (format_response r.2) }

/-! The concurrency model of `main.rs`: one task per connection, all sharing
`Arc<Mutex<DB>>`. `db.lock().unwrap().exec(cmd)` acquires the single lock,
executes the command's mutations of the shared state while holding it, and
drops the guard at the end of the statement — before `framer.send` writes the
response. A command is modelled as the list of primitive mutations its
execution applies to the shared state. -/

/-- A scheduling step of one of two connection tasks (`t` names the task):
lock acquisition, one primitive mutation of the shared state, lock release, or
the socket write of the response. -/
inductive Act where
  | acq (t : Bool)
  | mutate (t : Bool) (f : Manifest → Manifest)
  | rel (t : Bool)
  | send (t : Bool)

/-- The action sequence one connection task runs for one command: acquire the
lock, apply the command's mutations, release, then send the response outside
the critical section. -/
def taskProg (t : Bool) (fs : List (Manifest → Manifest)) : List Act :=
  Act.acq t :: (fs.map (Act.mutate t) ++ [Act.rel t, Act.send t])

/-- `taskProg` with the lock-independent `send` removed. -/
def noSendProg (t : Bool) (fs : List (Manifest → Manifest)) : List Act :=
  Act.acq t :: (fs.map (Act.mutate t) ++ [Act.rel t])

/-- Interleavings of two action sequences, as produced by the cooperative
scheduler running two connection tasks. -/
inductive Interleave : List Act → List Act → List Act → Prop
  | nil : Interleave [] [] []
  | left {x : Act} {xs ys zs : List Act} :
      Interleave xs ys zs → Interleave (x :: xs) ys (x :: zs)
  | right {y : Act} {xs ys zs : List Act} :
      Interleave xs ys zs → Interleave xs (y :: ys) (y :: zs)

/-- Run a trace under the mutual-exclusion semantics of the single database
lock: `acq` requires the lock to be free, `mut` requires the acting task to
hold it, `rel` returns it, and `send` is independent of the lock and does not
touch the shared state. `none` marks a schedule the `Mutex` cannot produce. -/
def runTrace : Option Bool → Manifest → List Act → Option Manifest
  | _, m, [] => some m
  | lk, m, Act.acq t :: rest =>
    match lk with
    | none => runTrace (some t) m rest
    | some _ => none
  | lk, m, Act.mutate t f :: rest =>
    match lk with
    | some holder => if t = holder then runTrace lk (f m) rest else none
    | none => none
  | lk, m, Act.rel t :: rest =>
    match lk with
    | some holder => if t = holder then runTrace none m rest else none
    | none => none
  | lk, m, Act.send _ :: rest => runTrace lk m rest

/-- Apply a command's mutations to the shared state in order. -/
def applyAll (fs : List (Manifest → Manifest)) (m : Manifest) : Manifest :=
  fs.foldl (fun s f => f s) m

/-- Discard the lock-independent socket writes from a trace. -/
def removeSends (tr : List Act) : List Act :=
  tr.filter (fun a => match a with | Act.send _ => false | _ => true)

/-! Basic lemmas about the association-list embedding. -/

theorem eraseKey_eq_filter (k : String) (l : List (String × V)) :
    eraseKey k l = l.filter (fun p => ¬ p.1 = k) := by
  induction l with
  | nil => rfl
  | cons p rest ih =>
    by_cases h : p.1 = k
    · simp [eraseKey, h, List.filter_cons, ih]
    · simp [eraseKey, h, List.filter_cons, ih]

theorem lookupKey_eraseKey_self (k : String) (l : List (String × V)) :
    lookupKey k (eraseKey k l) = none := by
  induction l with
  | nil => rfl
  | cons p rest ih =>
    by_cases h : p.1 = k
    · simpa [eraseKey, h] using ih
    · simpa [eraseKey, h, lookupKey] using ih

theorem lookupKey_eraseKey_ne (k k' : String) (l : List (String × V)) (hne : k' ≠ k) :
    lookupKey k' (eraseKey k l) = lookupKey k' l := by
  induction l with
  | nil => rfl
  | cons p rest ih =>
    by_cases h : p.1 = k
    · have hpk : ¬ p.1 = k' := fun hk => hne (by rw [← hk, h])
      simp only [eraseKey, if_pos h, lookupKey, if_neg hpk]
      exact ih
    · simp only [eraseKey, if_neg h, lookupKey]
      by_cases h2 : p.1 = k'
      · rw [if_pos h2, if_pos h2]
      · rw [if_neg h2, if_neg h2]
        exact ih

theorem lookupKey_eq_none_iff (k : String) (l : List (String × V)) :
    lookupKey k l = none ↔ ∀ p ∈ l, p.1 ≠ k := by
  induction l with
  | nil => simp [lookupKey]
  | cons p rest ih =>
    by_cases h : p.1 = k
    · simp [lookupKey, h]
    · simp [lookupKey, h, ih]

theorem lookupKey_mem (k : String) (l : List (String × V)) (v : V)
    (h : lookupKey k l = some v) : (k, v) ∈ l := by
  induction l with
  | nil => simp [lookupKey] at h
  | cons p rest ih =>
    by_cases hk : p.1 = k
    · simp [lookupKey, hk] at h
      obtain ⟨a, b⟩ := p
      simp only at hk h
      subst hk
      subst h
      exact List.mem_cons_self _ _
    · simp [lookupKey, hk] at h
      exact List.mem_cons_of_mem _ (ih h)

theorem lookupKey_of_mem_nodup (k : String) (l : List (String × V)) (v : V)
    (hnd : keysNodup l) (hmem : (k, v) ∈ l) : lookupKey k l = some v := by
  induction l with
  | nil => simp at hmem
  | cons p rest ih =>
    rcases List.mem_cons.mp hmem with heq | hmem'
    · subst heq
      simp [lookupKey]
    · have hkmem : k ∈ rest.map Prod.fst := List.mem_map.mpr ⟨(k, v), hmem', rfl⟩
      have hnd2 := hnd
      unfold keysNodup at hnd2
      rw [List.map_cons, List.nodup_cons] at hnd2
      have hk : p.1 ≠ k := by
        intro hkk
        exact hnd2.1 (by rw [hkk]; exact hkmem)
      simp only [lookupKey, hk, if_neg]
      exact ih hnd2.2 hmem'

theorem keysNodup_eraseKey (k : String) (l : List (String × V)) (h : keysNodup l) :
    keysNodup (eraseKey k l) := by
  unfold keysNodup at h ⊢
  rw [eraseKey_eq_filter]
  exact List.Nodup.sublist ((List.filter_sublist l).map Prod.fst) h

theorem mem_of_mem_eraseKey (k : String) (l : List (String × V)) (p : String × V)
    (h : p ∈ eraseKey k l) : p ∈ l ∧ p.1 ≠ k := by
  rw [eraseKey_eq_filter] at h
  have h' := List.mem_filter.mp h
  exact ⟨h'.1, by simpa using h'.2⟩

theorem keysNodup_filter (q : String × V → Bool) (l : List (String × V))
    (h : keysNodup l) : keysNodup (l.filter q) := by
  unfold keysNodup at h ⊢
  exact List.Nodup.sublist ((List.filter_sublist l).map Prod.fst) h

theorem keysNodup_cons_of_lookup_none (k : String) (v : V) (l : List (String × V))
    (hl : lookupKey k l = none) (h : keysNodup l) : keysNodup ((k, v) :: l) := by
  unfold keysNodup at h ⊢
  rw [List.map_cons, List.nodup_cons]
  refine ⟨?_, h⟩
  intro hmem
  obtain ⟨p, hp, hpk⟩ := List.mem_map.mp hmem
  exact (lookupKey_eq_none_iff k l).mp hl p hp hpk

theorem lookupKey_filter_none (q : String × V → Bool) (k : String)
    (l : List (String × V)) (h : lookupKey k l = none) :
    lookupKey k (l.filter q) = none := by
  induction l with
  | nil => rfl
  | cons p rest ih =>
    have hk : ¬ p.1 = k := by
      intro hpk
      simp [lookupKey, hpk] at h
    have hr : lookupKey k rest = none := by
      simpa [lookupKey, hk] using h
    rw [List.filter_cons]
    by_cases hq : q p
    · simp only [hq, if_true, lookupKey, hk, if_neg]
      exact ih hr
    · simp only [hq, if_false]
      exact ih hr

theorem lookupKey_filter_pos (q : String × V → Bool) (k : String) (v : V)
    (l : List (String × V)) (h : lookupKey k l = some v) (hq : q (k, v) = true) :
    lookupKey k (l.filter q) = some v := by
  induction l with
  | nil => simp [lookupKey] at h
  | cons p rest ih =>
    obtain ⟨a, b⟩ := p
    by_cases hk : a = k
    · subst hk
      have hb : b = v := by simpa [lookupKey] using h
      subst hb
      rw [List.filter_cons, if_pos hq]
      simp [lookupKey]
    · have hr : lookupKey k rest = some v := by simpa [lookupKey, hk] using h
      rw [List.filter_cons]
      by_cases hqp : q (a, b)
      · simp only [hqp, if_true, lookupKey, hk, if_neg]
        exact ih hr
      · simp only [hqp, if_false]
        exact ih hr

theorem lookupKey_filter_neg (q : String × V → Bool) (k : String) (v : V)
    (l : List (String × V)) (hnd : keysNodup l)
    (h : lookupKey k l = some v) (hq : q (k, v) = false) :
    lookupKey k (l.filter q) = none := by
  induction l with
  | nil => simp [lookupKey] at h
  | cons p rest ih =>
    obtain ⟨a, b⟩ := p
    have hnd2 := hnd
    unfold keysNodup at hnd2
    rw [List.map_cons, List.nodup_cons] at hnd2
    by_cases hk : a = k
    · subst hk
      have hb : b = v := by simpa [lookupKey] using h
      subst hb
      rw [List.filter_cons, if_neg (by simp [hq])]
      apply lookupKey_filter_none
      rw [lookupKey_eq_none_iff]
      intro p hp hpk
      exact hnd2.1 (by rw [← hpk]; exact List.mem_map.mpr ⟨p, hp, rfl⟩)
    · have hr : lookupKey k rest = some v := by simpa [lookupKey, hk] using h
      rw [List.filter_cons]
      by_cases hqp : q (a, b)
      · simp only [hqp, if_true, lookupKey, hk, if_neg]
        exact ih hnd2.2 hr
      · simp only [hqp, if_false]
        exact ih hnd2.2 hr

/-! Lemmas characterising the `del_log` cascade. -/

theorem filter_eraseKey_of_log (n L : String) (cur : List (String × Itr))
    (hall : ∀ p ∈ cur, p.1 = n → p.2.log = L) :
    (eraseKey n cur).filter (fun p => ¬ p.2.log = L) =
      cur.filter (fun p => ¬ p.2.log = L) := by
  induction cur with
  | nil => rfl
  | cons p rest ih =>
    have ih' := ih (fun p hp => hall p (List.mem_cons_of_mem _ hp))
    by_cases hn : p.1 = n
    · have hlog : p.2.log = L := hall p (List.mem_cons_self _ _) hn
      rw [eraseKey, if_pos hn, List.filter_cons, if_neg (by simp [hlog])]
      exact ih'
    · rw [eraseKey, if_neg hn, List.filter_cons, List.filter_cons]
      by_cases hq : p.2.log = L
      · rw [if_neg (by simp [hq]), if_neg (by simp [hq])]
        exact ih'
      · rw [if_pos (by simp [hq]), if_pos (by simp [hq])]
        rw [ih']

theorem delItrCascade_cons_ok (L n : String) (m : Manifest) (ns : List String)
    (itr : Itr) (hlk : lookupKey n m.itrs = some itr) (hlog : itr.log = L) :
    delItrCascade L m (n :: ns) =
      delItrCascade L { m with itrs := eraseKey n m.itrs } ns := by
  simp [delItrCascade, Manifest.del_itr, hlk, hlog]

theorem delItrCascade_spec (L : String) (ns : List String) :
    ∀ (logs : List (String × LogRegistrant)) (cur : List (String × Itr)),
    keysNodup cur →
    ns.Nodup →
    (∀ n ∈ ns, ∃ itr, lookupKey n cur = some itr ∧ itr.log = L) →
    (∀ p ∈ cur, p.2.log = L → p.1 ∈ ns) →
    delItrCascade L { logs := logs, itrs := cur } ns =
      some { logs := logs, itrs := cur.filter (fun p => ¬ p.2.log = L) } := by
  induction ns with
  | nil =>
    intro logs cur _ _ _ hall
    have : cur.filter (fun p => ¬ p.2.log = L) = cur := by
      apply List.filter_eq_self.mpr
      intro p hp
      have : ¬ p.2.log = L := fun hlog => by simpa using hall p hp hlog
      simpa using this
    rw [delItrCascade, this]
  | cons n rest ih =>
    intro logs cur hnd hns hex hall
    obtain ⟨itr, hlk, hlog⟩ := hex n (List.mem_cons_self _ _)
    rw [delItrCascade_cons_ok L n _ rest itr hlk hlog]
    have hkey : ∀ p ∈ cur, p.1 = n → p.2.log = L := by
      intro p hp hpk
      have hl := lookupKey_of_mem_nodup p.1 cur p.2 hnd (by simpa using hp)
      rw [hpk, hlk] at hl
      rw [← Option.some_inj.mp hl]
      exact hlog
    have hstep := ih logs (eraseKey n cur)
      (keysNodup_eraseKey n cur hnd)
      (List.Nodup.of_cons hns)
      (fun n' hn' => by
        have hne : n' ≠ n := fun heq => (List.nodup_cons.mp hns).1 (heq ▸ hn')
        rw [lookupKey_eraseKey_ne n n' cur hne]
        exact hex n' (List.mem_cons_of_mem _ hn'))
      (fun p hp hplog => by
        obtain ⟨hp', hpn⟩ := mem_of_mem_eraseKey n cur p hp
        rcases List.mem_cons.mp (hall p hp' hplog) with heq | hmem
        · exact absurd heq hpn
        · exact hmem)
    rw [hstep, filter_eraseKey_of_log n L cur hkey]

theorem del_log_eq_of_coherent (m : Manifest) (L : String)
    (hnd : keysNodup m.itrs) (hco : ∀ p ∈ m.itrs, p.2.name = p.1) :
    m.del_log L = some { logs := eraseKey L m.logs,
                         itrs := m.itrs.filter (fun p => ¬ p.2.log = L) } := by
  have hS : ∀ p ∈ m.itrs.filter (fun p => p.2.log = L), p ∈ m.itrs ∧ p.2.log = L := by
    intro p hp
    have h' := List.mem_filter.mp hp
    exact ⟨h'.1, by simpa using h'.2⟩
  have hmapeq : (m.itrs.filter (fun p => p.2.log = L)).map (fun p => p.2.name) =
      (m.itrs.filter (fun p => p.2.log = L)).map Prod.fst :=
    List.map_congr_left (fun p hp => hco p (hS p hp).1)
  have hns : ((m.itrs.filter (fun p => p.2.log = L)).map (fun p => p.2.name)).Nodup := by
    rw [hmapeq]
    exact List.Nodup.sublist ((List.filter_sublist m.itrs).map Prod.fst) hnd
  have hex : ∀ n ∈ (m.itrs.filter (fun p => p.2.log = L)).map (fun p => p.2.name),
      ∃ itr, lookupKey n m.itrs = some itr ∧ itr.log = L := by
    intro n hn
    obtain ⟨p, hp, hpn⟩ := List.mem_map.mp hn
    obtain ⟨hp', hplog⟩ := hS p hp
    have hname : p.2.name = p.1 := hco p hp'
    refine ⟨p.2, ?_, hplog⟩
    rw [← hpn, hname]
    exact lookupKey_of_mem_nodup p.1 m.itrs p.2 hnd (by simpa using hp')
  have hall : ∀ p ∈ m.itrs, p.2.log = L →
      p.1 ∈ (m.itrs.filter (fun p => p.2.log = L)).map (fun p => p.2.name) := by
    intro p hp hplog
    have hpf : p ∈ m.itrs.filter (fun p => p.2.log = L) :=
      List.mem_filter.mpr ⟨hp, by simpa using hplog⟩
    have : p.2.name ∈ (m.itrs.filter (fun p => p.2.log = L)).map (fun p => p.2.name) :=
      List.mem_map.mpr ⟨p, hpf, rfl⟩
    rwa [hco p hp] at this
  exact delItrCascade_spec L _ (eraseKey L m.logs) m.itrs hnd hns hex hall

/-! Case lemmas for each operation, and preservation of the representation
invariant along every reachable execution. -/

theorem add_log_vacant (m : Manifest) (n : String) (t : Nat)
    (h : lookupKey n m.logs = none) :
    m.add_log n t = { m with logs := (n, { name := n, created_at := t }) :: m.logs } := by
  simp [Manifest.add_log, h]

theorem add_log_occupied (m : Manifest) (n : String) (t : Nat) (r : LogRegistrant)
    (h : lookupKey n m.logs = some r) : m.add_log n t = m := by
  simp [Manifest.add_log, h]

theorem add_itr_fst_cases (m : Manifest) (L N : String) (K : IteratorKind) (F : String) :
    (m.add_itr L N K F).1 = m ∨
      (lookupKey N m.itrs = none ∧
        (m.add_itr L N K F).1 =
          { m with itrs := (N, { log := L, name := N, kind := K, func := F }) :: m.itrs }) := by
  cases h : lookupKey N m.itrs with
  | none =>
    right
    exact ⟨rfl, by simp [Manifest.add_itr, h]⟩
  | some s =>
    left
    by_cases hne : s ≠ { log := L, name := N, kind := K, func := F } <;>
      simp [Manifest.add_itr, h, hne]

theorem del_itr_fst_cases (m : Manifest) (L N : String) :
    (m.del_itr L N).1 = m ∨ (m.del_itr L N).1 = { m with itrs := eraseKey N m.itrs } := by
  cases h : lookupKey N m.itrs with
  | none =>
    left
    simp [Manifest.del_itr, h]
  | some itr =>
    by_cases hl : itr.log ≠ L
    · left
      simp [Manifest.del_itr, h, hl]
    · right
      simp [Manifest.del_itr, h, hl]

theorem reachable_wf (m : Manifest) (h : Reachable m) : manifestWF m := by
  induction h with
  | base =>
    exact ⟨List.nodup_nil, List.nodup_nil, by simp [Manifest.new], by simp [Manifest.new]⟩
  | addLog n t hr ih =>
    obtain ⟨h1, h2, h3, h4⟩ := ih
    rename_i mc
    cases hl : lookupKey n mc.logs with
    | some r =>
      rw [add_log_occupied mc n t r hl]
      exact ⟨h1, h2, h3, h4⟩
    | none =>
      rw [add_log_vacant mc n t hl]
      refine ⟨keysNodup_cons_of_lookup_none n _ mc.logs hl h1, h2, ?_, h4⟩
      intro p hp
      rcases List.mem_cons.mp hp with heq | hmem
      · rw [heq]
      · exact h3 p hmem
  | delLog n hr hdel ih =>
    obtain ⟨h1, h2, h3, h4⟩ := ih
    rename_i mc m'
    have hchar := del_log_eq_of_coherent mc n h2 h4
    rw [hdel] at hchar
    have hm' := Option.some_inj.mp hchar
    subst hm'
    refine ⟨keysNodup_eraseKey n mc.logs h1, keysNodup_filter _ mc.itrs h2, ?_, ?_⟩
    · intro p hp
      exact h3 p (mem_of_mem_eraseKey n mc.logs p hp).1
    · intro p hp
      exact h4 p (List.mem_filter.mp hp).1
  | addItr l n k f hr ih =>
    obtain ⟨h1, h2, h3, h4⟩ := ih
    rename_i mc
    rcases add_itr_fst_cases mc l n k f with heq | ⟨hl, heq⟩
    · rw [heq]
      exact ⟨h1, h2, h3, h4⟩
    · rw [heq]
      refine ⟨h1, keysNodup_cons_of_lookup_none n _ mc.itrs hl h2, h3, ?_⟩
      intro p hp
      rcases List.mem_cons.mp hp with heq' | hmem
      · rw [heq']
      · exact h4 p hmem
  | delItr l n hr ih =>
    obtain ⟨h1, h2, h3, h4⟩ := ih
    rename_i mc
    rcases del_itr_fst_cases mc l n with heq | heq
    · rw [heq]
      exact ⟨h1, h2, h3, h4⟩
    · rw [heq]
      refine ⟨h1, keysNodup_eraseKey n mc.itrs h2, h3, ?_⟩
      intro p hp
      exact h4 p (mem_of_mem_eraseKey n mc.itrs p hp).1

/-! Claim theorems for the Manifest operations. -/

/-- C1 counterexample: the claim quantifies over every manifest state, but on
the state whose single iterator is stored under key `"a"` while its `name`
field is `"b"`, the cascade of `del_log("payments")` calls
`del_itr("payments", "b")`, which fails (`"b"` is vacant), so the `expect`
panics: no resulting state exists at all, and in particular the removals the
claim describes do not happen. -/
theorem del_log_panics_on_incoherent_state :
    ¬ ∃ m', Manifest.del_log
        { logs := [],
          itrs := [("a", { log := "payments", name := "b",
                           kind := { tag := "map" }, func := "g" })] }
        "payments" = some m' := by
  rintro ⟨m', hm'⟩
  have h0 : Manifest.del_log
      { logs := [],
        itrs := [("a", { log := "payments", name := "b",
                         kind := { tag := "map" }, func := "g" })] }
      "payments" = none := by decide
  rw [h0] at hm'
  exact Option.noConfusion hm'

/-- C1 (amended): for every manifest state with the hash-map property that
`itrs` has no duplicate keys and in which every stored iterator's `name` field
equals its key — which holds in every state reachable through the public
operations — `del_log(L)` returns a state in which the entry for `L` is gone
from `logs` (absence of the entry not being an error), every iterator whose
`log` field equals `L` is removed, and every other log entry and every
iterator whose `log` field differs from `L` is unchanged. -/
theorem del_log_removes_log_and_cascades (m : Manifest) (L : String)
    (hnd : keysNodup m.itrs) (hco : ∀ p ∈ m.itrs, p.2.name = p.1) :
    ∃ m', m.del_log L = some m' ∧
      lookupKey L m'.logs = none ∧
      (∀ k, k ≠ L → lookupKey k m'.logs = lookupKey k m.logs) ∧
      (∀ k itr, lookupKey k m.itrs = some itr → itr.log = L →
        lookupKey k m'.itrs = none) ∧
      (∀ k itr, lookupKey k m.itrs = some itr → itr.log ≠ L →
        lookupKey k m'.itrs = some itr) ∧
      (∀ k, lookupKey k m.itrs = none → lookupKey k m'.itrs = none) := by
  refine ⟨_, del_log_eq_of_coherent m L hnd hco, lookupKey_eraseKey_self L m.logs,
    fun k hk => lookupKey_eraseKey_ne L k m.logs hk, ?_, ?_, ?_⟩
  · intro k itr hlk hlog
    exact lookupKey_filter_neg _ k itr m.itrs hnd hlk (by simp [hlog])
  · intro k itr hlk hlog
    exact lookupKey_filter_pos _ k itr m.itrs hlk (by simp [hlog])
  · intro k hlk
    exact lookupKey_filter_none _ k m.itrs hlk

/-- Witness for the amended C1 at a concrete coherent state: two logs, one
iterator on each; deleting `"orders"` removes the `"orders"` log and its
iterator `"sum"`, and leaves `"billing"` and its iterator `"avg"` untouched. -/
theorem del_log_removes_log_and_cascades_witness :
    ∃ m', Manifest.del_log
        { logs := [("orders", { name := "orders", created_at := 5 }),
                   ("billing", { name := "billing", created_at := 6 })],
          itrs := [("sum", { log := "orders", name := "sum",
                             kind := { tag := "map" }, func := "f1" }),
                   ("avg", { log := "billing", name := "avg",
                             kind := { tag := "map" }, func := "f2" })] }
        "orders" = some m' ∧
      lookupKey "orders" m'.logs = none ∧
      (∀ k, k ≠ "orders" →
        lookupKey k m'.logs =
          lookupKey k ([("orders", { name := "orders", created_at := 5 }),
                        ("billing", { name := "billing", created_at := 6 })] :
            List (String × LogRegistrant))) ∧
      (∀ k itr,
        lookupKey k ([("sum", { log := "orders", name := "sum",
                                kind := { tag := "map" }, func := "f1" }),
                      ("avg", { log := "billing", name := "avg",
                                kind := { tag := "map" }, func := "f2" })] :
            List (String × Itr)) = some itr →
        itr.log = "orders" → lookupKey k m'.itrs = none) ∧
      (∀ k itr,
        lookupKey k ([("sum", { log := "orders", name := "sum",
                                kind := { tag := "map" }, func := "f1" }),
                      ("avg", { log := "billing", name := "avg",
                                kind := { tag := "map" }, func := "f2" })] :
            List (String × Itr)) = some itr →
        itr.log ≠ "orders" → lookupKey k m'.itrs = some itr) ∧
      (∀ k,
        lookupKey k ([("sum", { log := "orders", name := "sum",
                                kind := { tag := "map" }, func := "f1" }),
                      ("avg", { log := "billing", name := "avg",
                                kind := { tag := "map" }, func := "f2" })] :
            List (String × Itr)) = none →
        lookupKey k m'.itrs = none) :=
  del_log_removes_log_and_cascades _ "orders" (by decide) (by decide)

/-- C4 counterexample: the claim quantifies over every manifest state, but on
the state whose single iterator is stored under key `"k"` with `name` field
`"n"`, the cascaded `del_itr("audit", "n")` inside `del_log("audit")` fails, so
the `expect` abort path is taken and `del_log` does not return a state. -/
theorem del_log_abort_path_taken :
    (Manifest.del_log
        { logs := [],
          itrs := [("k", { log := "audit", name := "n",
                           kind := { tag := "map" }, func := "f" })] }
        "audit").isSome = false := by decide

/-- C4 (amended): for every manifest state whose `itrs` map has no duplicate
keys and in which every stored iterator's `name` field equals its key — which
holds in every reachable state — every cascaded `del_itr` inside `del_log`
succeeds, so the abort path guarding the cascade (the `expect` on `del_itr`'s
result) is never taken and `del_log` returns normally to its caller. -/
theorem del_log_never_aborts_on_coherent (m : Manifest) (L : String)
    (hnd : keysNodup m.itrs) (hco : ∀ p ∈ m.itrs, p.2.name = p.1) :
    (m.del_log L).isSome := by
  rw [del_log_eq_of_coherent m L hnd hco]
  rfl

/-- Witness for the amended C4 at a concrete coherent state. -/
theorem del_log_never_aborts_on_coherent_witness :
    (Manifest.del_log
        { logs := [("orders", { name := "orders", created_at := 3 })],
          itrs := [("sum", { log := "orders", name := "sum",
                             kind := { tag := "map" }, func := "f1" })] }
        "orders").isSome :=
  del_log_never_aborts_on_coherent _ "orders" (by decide) (by decide)

/-- C10: in every manifest state reachable from `Manifest::new` via any
sequence of `add_log`, `del_log`, `add_itr` and `del_itr` calls, every
`LogRegistrant` stored in `logs` under key `k` has `name = k`, and every
iterator stored in `itrs` under key `k` has `name = k` — the key coherence the
`del_log` cascade relies on, since it deletes iterators by their `name`
field. -/
theorem reachable_key_coherence (m : Manifest) (h : Reachable m) :
    (∀ p ∈ m.logs, p.2.name = p.1) ∧ (∀ p ∈ m.itrs, p.2.name = p.1) :=
  ⟨(reachable_wf m h).2.2.1, (reachable_wf m h).2.2.2⟩

/-- Witness for C10 at a concrete reachable state. -/
theorem reachable_key_coherence_witness :
    (∀ p ∈ ((Manifest.new.add_log "orders" 5).add_itr "orders" "sum"
        { tag := "map" } "f1").1.logs, p.2.name = p.1) ∧
    (∀ p ∈ ((Manifest.new.add_log "orders" 5).add_itr "orders" "sum"
        { tag := "map" } "f1").1.itrs, p.2.name = p.1) :=
  reachable_key_coherence _
    (Reachable.addItr "orders" "sum" { tag := "map" } "f1"
      (Reachable.addLog "orders" 5 Reachable.base))

/-- C5: `add_log(n)` inserts a `LogRegistrant` with `created_at = now()` if and
only if `n` is absent from the `logs` map, otherwise has no effect (and never
fails — the embedding is total in the current time); `created_at` is set only
on the first insertion and never updated, so a second `add_log(n)` is a no-op
and the entry for `n` keeps the `created_at` of the first call. -/
theorem add_log_idempotent_created_at_first_call
    (m : Manifest) (n : String) (t₁ t₂ : Nat) :
    (lookupKey n m.logs = none →
      m.add_log n t₁ =
        { m with logs := (n, { name := n, created_at := t₁ }) :: m.logs }) ∧
    (lookupKey n m.logs ≠ none → m.add_log n t₁ = m) ∧
    (∀ k, k ≠ n → lookupKey k (m.add_log n t₁).logs = lookupKey k m.logs) ∧
    (m.add_log n t₁).itrs = m.itrs ∧
    (m.add_log n t₁).add_log n t₂ = m.add_log n t₁ ∧
    (lookupKey n m.logs = none →
      lookupKey n ((m.add_log n t₁).add_log n t₂).logs =
        some { name := n, created_at := t₁ }) := by
  cases h : lookupKey n m.logs with
  | none =>
    refine ⟨fun _ => by simp [Manifest.add_log, h], fun hc => absurd rfl hc, ?_, ?_, ?_, ?_⟩
    · intro k hk
      have hnk : ¬ n = k := fun hnk => hk hnk.symm
      simp [Manifest.add_log, h, lookupKey, hnk]
    · simp [Manifest.add_log, h]
    · simp [Manifest.add_log, h, lookupKey]
    · intro _
      simp [Manifest.add_log, h, lookupKey]
  | some r =>
    refine ⟨fun hc => by simp [h] at hc, fun _ => by simp [Manifest.add_log, h], ?_, ?_, ?_, ?_⟩
    · intro k _
      simp [Manifest.add_log, h]
    · simp [Manifest.add_log, h]
    · simp [Manifest.add_log, h]
    · intro hc
      simp [h] at hc

/-- Witness for C5 at a concrete input: adding `"orders"` twice, with times 7
and then 9, keeps exactly the first `created_at`. -/
theorem add_log_idempotent_created_at_first_call_witness :
    lookupKey "orders" ((Manifest.new.add_log "orders" 7).add_log "orders" 9).logs =
      some { name := "orders", created_at := 7 } :=
  (add_log_idempotent_created_at_first_call Manifest.new "orders" 7 9).2.2.2.2.2 rfl

/-- C2: `add_itr(L, N, K, F)` inserts `{log := L, name := N, kind := K,
func := F}` and succeeds when `N` is vacant; succeeds as a no-op when the
stored entry under `N` equals the candidate in all four fields; and when any
field differs, returns `ItrExistsWithSameName` and leaves the whole manifest —
in particular the stored entry — unchanged. -/
theorem add_itr_insert_noop_or_conflict
    (m : Manifest) (L N : String) (K : IteratorKind) (F : String) :
    (lookupKey N m.itrs = none →
      m.add_itr L N K F =
        ({ m with itrs := (N, { log := L, name := N, kind := K, func := F }) :: m.itrs },
          .ok ())) ∧
    (∀ s, lookupKey N m.itrs = some s →
      s = { log := L, name := N, kind := K, func := F } →
      m.add_itr L N K F = (m, .ok ())) ∧
    (∀ s, lookupKey N m.itrs = some s →
      s ≠ { log := L, name := N, kind := K, func := F } →
      m.add_itr L N K F = (m, .error .ItrExistsWithSameName)) := by
  refine ⟨fun h => by simp [Manifest.add_itr, h], ?_, ?_⟩
  · intro s hs heq
    subst heq
    simp [Manifest.add_itr, hs]
  · intro s hs hne
    simp [Manifest.add_itr, hs, hne]

/-- Witness for C2 at a concrete input: re-adding `"sum"` with a different
`func` fails with the duplicate-name error and changes nothing. -/
theorem add_itr_insert_noop_or_conflict_witness :
    Manifest.add_itr
        { logs := [],
          itrs := [("sum", { log := "orders", name := "sum",
                             kind := { tag := "map" }, func := "f1" })] }
        "orders" "sum" { tag := "map" } "f2" =
      ({ logs := [],
         itrs := [("sum", { log := "orders", name := "sum",
                            kind := { tag := "map" }, func := "f1" })] },
        .error .ItrExistsWithSameName) :=
  (add_itr_insert_noop_or_conflict _ "orders" "sum" { tag := "map" } "f2").2.2
    _ rfl (by decide)

/-- C3: `del_itr(L, N)` fails with the single error value `ItrDoesNotExist`
both when `N` is vacant and when `N` is occupied with a stored `log` different
from `L` — the two failure cases return literally the same result, so they are
indistinguishable — and in both cases the manifest is unchanged; when the
stored `log` equals `L`, the call succeeds, removes exactly the entry under
`N`, and leaves every other iterator entry and the `logs` map unchanged. -/
theorem del_itr_notfound_or_remove
    (m : Manifest) (L N : String) :
    (lookupKey N m.itrs = none → m.del_itr L N = (m, .error .ItrDoesNotExist)) ∧
    (∀ s, lookupKey N m.itrs = some s → s.log ≠ L →
      m.del_itr L N = (m, .error .ItrDoesNotExist)) ∧
    (∀ s, lookupKey N m.itrs = some s → s.log = L →
      (m.del_itr L N).2 = .ok () ∧
      (m.del_itr L N).1.logs = m.logs ∧
      lookupKey N (m.del_itr L N).1.itrs = none ∧
      (∀ k, k ≠ N → lookupKey k (m.del_itr L N).1.itrs = lookupKey k m.itrs)) := by
  refine ⟨fun h => by simp [Manifest.del_itr, h], ?_, ?_⟩
  · intro s hs hne
    simp [Manifest.del_itr, hs, hne]
  · intro s hs hlog
    refine ⟨by simp [Manifest.del_itr, hs, hlog], by simp [Manifest.del_itr, hs, hlog], ?_, ?_⟩
    · simp [Manifest.del_itr, hs, hlog, lookupKey_eraseKey_self]
    · intro k hk
      simp only [Manifest.del_itr, hs, hlog]
      simp only [ne_eq, not_true_eq_false, if_false]
      exact lookupKey_eraseKey_ne N k m.itrs hk

/-- Witness for C3 at a concrete input (the spec's Scenario B): `"sum"` exists
under log `"orders"`; `del_itr("billing", "sum")` fails with `ItrDoesNotExist`
and the manifest — including the entry under `"orders"` — is unchanged. -/
theorem del_itr_notfound_or_remove_witness :
    Manifest.del_itr
        { logs := [],
          itrs := [("sum", { log := "orders", name := "sum",
                             kind := { tag := "map" }, func := "f1" })] }
        "billing" "sum" =
      ({ logs := [],
         itrs := [("sum", { log := "orders", name := "sum",
                            kind := { tag := "map" }, func := "f1" })] },
        .error .ItrDoesNotExist) :=
  (del_itr_notfound_or_remove _ "billing" "sum").2.1 _ rfl (by decide)

/-- C6: `add_itr` never consults the `logs` map: replacing `logs` by anything
changes neither the returned result nor the resulting `itrs` map, and the
`logs` map itself is never modified by `add_itr`. In particular `add_itr` can
succeed for a log name that is absent from `logs`. -/
theorem add_itr_independent_of_logs
    (m : Manifest) (L N : String) (K : IteratorKind) (F : String)
    (logsAlt : List (String × LogRegistrant)) :
    (Manifest.add_itr { m with logs := logsAlt } L N K F).2 = (m.add_itr L N K F).2 ∧
    (Manifest.add_itr { m with logs := logsAlt } L N K F).1.itrs =
      (m.add_itr L N K F).1.itrs ∧
    (m.add_itr L N K F).1.logs = m.logs := by
  cases h : lookupKey N m.itrs with
  | none => simp [Manifest.add_itr, h]
  | some s =>
    by_cases hne : s ≠ { log := L, name := N, kind := K, func := F }
    · simp [Manifest.add_itr, h, hne]
    · simp [Manifest.add_itr, h, hne]

/-! Claim theorems for the connection/command pipeline. -/

/-- C7: a successful payload `x` is encoded as the single leading success
marker byte `'+'` followed by the bytes of `x` verbatim; a failure is encoded
as the single leading failure marker byte `'!'` followed by the error's UTF-8
bytes; and the handler's parse-error path and its command-execution path emit
this identical error encoding. -/
theorem response_encoding_marker_then_payload {Cmd Db : Type}
    (exec : Db → Cmd → Db × Except (List Nat) (List Nat)) (db : Db)
    (x e : List Nat) (cmd : Cmd) (w : Bool) :
    format_response (.ok x) = successMarker :: x ∧
    format_error_response e = failureMarker :: e ∧
    format_response (.error e) = format_error_response e ∧
    (handle_socket_step exec db (.received (.error e) w)).sent =
      some (format_error_response e) ∧
    (handle_socket_step exec db (.received (.ok cmd) w)).sent =
      some (format_response (exec db cmd).2) :=
  ⟨rfl, rfl, rfl, rfl, rfl⟩

/-- C8: in the per-connection handler's loop, end of stream and a transport
read error always leave the connection in the terminal `Closed` state, while a
received frame — whatever the parse verdict and whether or not the response
write succeeds — leaves the connection `Open`, attempting to read the next
frame: the write-success flag is ignored by the next-state computation. -/
theorem read_errors_close_write_errors_do_not {Cmd Db : Type}
    (exec : Db → Cmd → Db × Except (List Nat) (List Nat)) (db : Db)
    (pr : Except (List Nat) Cmd) (w : Bool) :
    (handle_socket_step exec db ReadEvent.endOfStream).conn = ConnState.Closed ∧
    (handle_socket_step exec db ReadEvent.readError).conn = ConnState.Closed ∧
    (handle_socket_step exec db (ReadEvent.received pr w)).conn = ConnState.Open ∧
    (handle_socket_step exec db (ReadEvent.received pr true)).conn =
      (handle_socket_step exec db (ReadEvent.received pr false)).conn := by
  cases pr <;> exact ⟨rfl, rfl, rfl, rfl⟩

/-! Serialization of command execution under the single database lock. -/

theorem runTrace_removeSends (tr : List Act) :
    ∀ (lk : Option Bool) (m : Manifest),
    runTrace lk m (removeSends tr) = runTrace lk m tr := by
  induction tr with
  | nil => intro lk m; rfl
  | cons a rest ih =>
    intro lk m
    cases a with
    | acq t =>
      rw [show removeSends (Act.acq t :: rest) = Act.acq t :: removeSends rest from rfl]
      cases lk with
      | none => simp only [runTrace]; exact ih _ _
      | some _ => simp only [runTrace]
    | mutate t f =>
      rw [show removeSends (Act.mutate t f :: rest) = Act.mutate t f :: removeSends rest from rfl]
      cases lk with
      | none => simp only [runTrace]
      | some holder =>
        simp only [runTrace]
        by_cases ht : t = holder
        · rw [if_pos ht, if_pos ht]; exact ih _ _
        · rw [if_neg ht, if_neg ht]
    | rel t =>
      rw [show removeSends (Act.rel t :: rest) = Act.rel t :: removeSends rest from rfl]
      cases lk with
      | none => simp only [runTrace]
      | some holder =>
        simp only [runTrace]
        by_cases ht : t = holder
        · rw [if_pos ht, if_pos ht]; exact ih _ _
        · rw [if_neg ht, if_neg ht]
    | send t =>
      rw [show removeSends (Act.send t :: rest) = removeSends rest from rfl]
      simp only [runTrace]
      exact ih _ _

theorem interleave_removeSends {xs ys zs : List Act} (h : Interleave xs ys zs) :
    Interleave (removeSends xs) (removeSends ys) (removeSends zs) := by
  induction h with
  | nil => exact Interleave.nil
  | left h ih =>
    rename_i x _ _ _
    cases x with
    | send t => exact ih
    | acq t => exact Interleave.left ih
    | mutate t f => exact Interleave.left ih
    | rel t => exact Interleave.left ih
  | right h ih =>
    rename_i y _ _ _
    cases y with
    | send t => exact ih
    | acq t => exact Interleave.right ih
    | mutate t f => exact Interleave.right ih
    | rel t => exact Interleave.right ih

theorem interleave_nil_left {ys zs : List Act} (h : Interleave [] ys zs) : zs = ys := by
  induction ys generalizing zs with
  | nil => cases h; rfl
  | cons y ys ih =>
    cases h with
    | right h' => rw [ih h']

theorem removeSends_taskProg (t : Bool) (fs : List (Manifest → Manifest)) :
    removeSends (taskProg t fs) = noSendProg t fs := by
  unfold taskProg noSendProg removeSends
  rw [List.filter_cons, List.filter_append]
  have hmap : (fs.map (Act.mutate t)).filter
      (fun a => match a with | Act.send _ => false | _ => true) = fs.map (Act.mutate t) := by
    apply List.filter_eq_self.mpr
    intro a ha
    obtain ⟨f, _, hf⟩ := List.mem_map.mp ha
    rw [← hf]
  rw [hmap]
  rfl

theorem runTrace_solo (u : Bool) (gs : List (Manifest → Manifest)) (m : Manifest) :
    runTrace none m (noSendProg u gs) = some (applyAll gs m) := by
  unfold noSendProg
  simp only [runTrace]
  induction gs generalizing m with
  | nil => simp [runTrace, applyAll]
  | cons f fs ih => simpa [runTrace, applyAll] using ih (f m)

theorem interleave_swap {xs ys zs : List Act} (h : Interleave xs ys zs) :
    Interleave ys xs zs := by
  induction h with
  | nil => exact Interleave.nil
  | left h ih => exact Interleave.right ih
  | right h ih => exact Interleave.left ih

theorem runTrace_acq_blocked (t u : Bool) (m : Manifest) (rest : List Act) :
    runTrace (some t) m (Act.acq u :: rest) = none := rfl

theorem runTrace_acq_step (t : Bool) (m : Manifest) (rest : List Act) :
    runTrace none m (Act.acq t :: rest) = runTrace (some t) m rest := rfl

theorem runTrace_mutate_step (t : Bool) (f : Manifest → Manifest) (m : Manifest)
    (rest : List Act) :
    runTrace (some t) m (Act.mutate t f :: rest) = runTrace (some t) (f m) rest := by
  simp [runTrace]

theorem runTrace_rel_step (t : Bool) (m : Manifest) (rest : List Act) :
    runTrace (some t) m (Act.rel t :: rest) = runTrace none m rest := by
  simp [runTrace]

theorem runTrace_crit (t u : Bool) (gs : List (Manifest → Manifest)) :
    ∀ (ms : List (Manifest → Manifest)) (tr : List Act) (m mf : Manifest),
    Interleave (ms.map (Act.mutate t) ++ [Act.rel t]) (noSendProg u gs) tr →
    runTrace (some t) m tr = some mf →
    mf = applyAll gs (applyAll ms m) := by
  intro ms
  induction ms with
  | nil =>
    intro tr m mf hI hrun
    cases hI with
    | left hI' =>
      have htr := interleave_nil_left hI'
      subst htr
      rw [runTrace_rel_step, runTrace_solo u gs m] at hrun
      exact (Option.some_inj.mp hrun).symm
    | right hI' =>
      rw [runTrace_acq_blocked] at hrun
      exact Option.noConfusion hrun
  | cons f ms' ih =>
    intro tr m mf hI hrun
    cases hI with
    | left hI' =>
      rw [runTrace_mutate_step] at hrun
      exact ih _ (f m) mf hI' hrun
    | right hI' =>
      rw [runTrace_acq_blocked] at hrun
      exact Option.noConfusion hrun

theorem runTrace_noSend_serializes (fs gs : List (Manifest → Manifest))
    (tr : List Act) (m mf : Manifest)
    (hI : Interleave (noSendProg true fs) (noSendProg false gs) tr)
    (hrun : runTrace none m tr = some mf) :
    mf = applyAll gs (applyAll fs m) ∨ mf = applyAll fs (applyAll gs m) := by
  cases hI with
  | left hI' =>
    left
    rw [runTrace_acq_step] at hrun
    exact runTrace_crit true false gs fs _ m mf hI' hrun
  | right hI' =>
    right
    rw [runTrace_acq_step] at hrun
    exact runTrace_crit false true fs gs _ m mf (interleave_swap hI') hrun

/-- C9: command execution is fully serialized by the single database lock.
For two connection tasks whose commands apply the mutation lists `fs` and
`gs`, any scheduler interleaving of their acquire/execute/release/send
programs that the mutual-exclusion lock admits ends with the shared manifest
equal to one of the two sequential orders — no partial effects of one command
interleave with the other, and the response `send` (performed after the guard
is dropped) has no bearing on the shared state. -/
theorem commands_serialize_across_connections
    (fs gs : List (Manifest → Manifest)) (tr : List Act) (m mf : Manifest)
    (hI : Interleave (taskProg true fs) (taskProg false gs) tr)
    (hrun : runTrace none m tr = some mf) :
    mf = applyAll gs (applyAll fs m) ∨ mf = applyAll fs (applyAll gs m) := by
  have h1 := interleave_removeSends hI
  rw [removeSends_taskProg, removeSends_taskProg] at h1
  have h2 : runTrace none m (removeSends tr) = some mf := by
    rw [runTrace_removeSends]
    exact hrun
  exact runTrace_noSend_serializes fs gs _ m mf h1 h2

/-- Witness for C9 on a concrete schedule: task `true` adds log `"a"`, task
`false` adds log `"b"`, run back to back; the final state is one of the two
sequential compositions. -/
theorem commands_serialize_across_connections_witness :
    (Manifest.new.add_log "a" 1).add_log "b" 2 =
      applyAll [fun m => m.add_log "b" 2]
        (applyAll [fun m => m.add_log "a" 1] Manifest.new) ∨
    (Manifest.new.add_log "a" 1).add_log "b" 2 =
      applyAll [fun m => m.add_log "a" 1]
        (applyAll [fun m => m.add_log "b" 2] Manifest.new) :=
  commands_serialize_across_connections
    [fun m => m.add_log "a" 1] [fun m => m.add_log "b" 2]
    (taskProg true [fun m => m.add_log "a" 1] ++ taskProg false [fun m => m.add_log "b" 2])
    Manifest.new ((Manifest.new.add_log "a" 1).add_log "b" 2)
    (Interleave.left (Interleave.left (Interleave.left (Interleave.left
      (Interleave.right (Interleave.right (Interleave.right (Interleave.right
        Interleave.nil))))))))
    rfl

end Remits
